import Mathlib

/-
Verification of the `tno.mpc.secret_sharing` package: a shallow embedding of the
additive and Shamir secret-sharing schemes (`additive/additive.py`,
`shamir/shamir.py`, `templates/threshold.py`, `templates/base.py`) together with
proofs about them.

Modelling conventions:
* Python integers are `ℤ`; Python `x % m` (with `m > 0`) coincides with `Int.emod`
  (written `%` below), and Python `x // y` is `Int.fdiv` (floor division).
* Parties are identified by their canonical sorted index `0, ..., n-1`
  (`SecretSharingScheme.mapping` is a bijection from party names onto these
  indices); a set of party names is modelled as the `Finset ℕ` of their indices.
* Random draws (`secrets.randbelow`) are universally quantified inputs.
* Fallible code returns `Except String` carrying the raised `ValueError` message.
* Python products over generators are modelled as `Finset` products; the
  iteration order is irrelevant because integer multiplication is commutative.
-/

/-- Modelled from the spec: `mod_inv(value, modulus)` is imported from the external
package `tno.mpc.encryption_schemes.utils`, which is not part of this repository.
Per the spec (section 4.6) it is the modular inverse `inverse(x, modulus)`, defined
whenever the arguments are coprime (in particular for a prime modulus). It is
computed here with the extended Euclidean algorithm and reduced into `[0, modulus)`. -/
def mod_inv (value modulus : ℤ) : ℤ :=
  Int.gcdA value modulus % modulus

namespace Shamir

/-- Source `shamir.py`: `self.max_value = modulus // 2`. -/
def max_value (modulus : ℤ) : ℤ :=
  modulus.fdiv 2

/-- Source `shamir.py`: `self.min_value = (-modulus) // 2 + 1`. -/
def min_value (modulus : ℤ) : ℤ :=
  (-modulus).fdiv 2 + 1

/-- Source `ShamirSecretSharingScheme.encode`: range check, then reduction mod the modulus. -/
def encode (modulus value : ℤ) : Except String ℤ :=
  if min_value modulus ≤ value ∧ value ≤ max_value modulus then
    Except.ok (value % modulus)
  else
    Except.error
      ("This encoding scheme only supports values in the range [" ++
        toString (min_value modulus) ++ ";" ++ toString (max_value modulus) ++
        "], " ++ toString value ++ " is outside that range.")

/-- Source `ShamirSecretSharingScheme.decode`. -/
def decode (modulus encoded_value : ℤ) : ℤ :=
  if encoded_value ≤ max_value modulus then encoded_value else encoded_value - modulus

/-- Source `ShamirSecretSharingScheme.weights`: `n_factorial = self._prod(range(1, self.n + 1))`. -/
def n_factorial (n : ℕ) : ℤ :=
  ∏ j ∈ Finset.Ico 1 (n + 1), (j : ℤ)

/-- Source `ShamirSecretSharingScheme.weights`: the cached reconstruction weight of party `i`,
`n_factorial // ((i + 1) * prod(j - i for j in range(n) if j != i))` (floor division). -/
def weights (n : ℕ) (i : ℕ) : ℤ :=
  (n_factorial n).fdiv (((i : ℤ) + 1) * ∏ j ∈ (Finset.range n).erase i, ((j : ℤ) - (i : ℤ)))

/-- Source `ShamirSecretSharingScheme._generate_polynomial`: evaluation of
`sum(coefficients[i] * x**i for i in range(self.threshold)) % self.modulus`. -/
def polynomial (threshold : ℕ) (coefficients : ℕ → ℤ) (modulus x : ℤ) : ℤ :=
  (∑ i ∈ Finset.range threshold, coefficients i * x ^ i) % modulus

/-- Source `ShamirSecretSharingScheme._share_secret`: coefficients are the secret followed by
the random draws `rand 1, ..., rand (threshold - 1)`; the share of party `i` is the
polynomial evaluated at `i + 1`. -/
def share_secret (n threshold : ℕ) (modulus secret : ℤ) (rand : ℕ → ℤ) : List ℤ :=
  (List.range n).map fun i : ℕ =>
    polynomial threshold (fun k => if k = 0 then secret else rand k) modulus ((i : ℤ) + 1)

/-- Source `ShamirSecretSharingScheme._reconstruct_raw`, branch `other_parties is None`:
`sum(self.weights[i] * shares[i] for i in range(self.n)) % self.modulus`. -/
def reconstruct_raw_full (n : ℕ) (modulus : ℤ) (shares : List ℤ) : ℤ :=
  (∑ i ∈ Finset.range n, weights n i * shares.getD i 0) % modulus

/-- Source `ShamirSecretSharingScheme._reconstruct_raw`, branch with named contributors:
partial weights `numerator * mod_inv((i + 1) * prod(j - i), modulus)` summed against
the shares of the contributors, reduced mod the modulus. -/
def reconstruct_raw_partial (modulus : ℤ) (contributors : Finset ℕ) (shares : List ℤ) : ℤ :=
  (∑ i ∈ contributors,
      (∏ c ∈ contributors, ((c : ℤ) + 1)) *
          mod_inv (((i : ℤ) + 1) * ∏ j ∈ contributors.erase i, ((j : ℤ) - (i : ℤ))) modulus *
        shares.getD i 0) %
    modulus

/-- Source `ShamirSecretSharingScheme._reconstruct_raw`: dispatch on `other_parties`; a named
set of other parties is joined with the local party (`other_parties.union({self.pool.name})`)
before the partial reconstruction. -/
def reconstruct_raw (n : ℕ) (modulus : ℤ) (localIdx : ℕ) (shares : List ℤ)
    (otherParties : Option (Finset ℕ)) : ℤ :=
  match otherParties with
  | none => reconstruct_raw_full n modulus shares
  | some ps => reconstruct_raw_partial modulus (ps ∪ {localIdx}) shares

/-- Source `ThresholdSecretSharingScheme._reconstruct`: the `ValueError` message raised when a
named contributor set is smaller than the threshold. -/
def threshold_error (threshold num_parties : ℕ) : String :=
  "The scheme\x27s threshold is " ++ toString threshold ++ ", but only " ++
    toString num_parties ++ " were supplied"

/-- Source `ThresholdSecretSharingScheme._reconstruct` followed by
`SecretSharingScheme._reconstruct`: the guard `if other_parties and
(num_parties := len(other_parties) + 1) < self.threshold` (note the Python truthiness
test: `None` and the empty set both skip the check), then the raw reconstruction,
decoded when `apply_encoding` is set. -/
def reconstruct (n threshold : ℕ) (modulus : ℤ) (localIdx : ℕ) (shares : List ℤ)
    (applyEncoding : Bool) (otherParties : Option (Finset ℕ)) : Except String ℤ :=
  match otherParties with
  | some ps =>
    if ps.Nonempty ∧ ps.card + 1 < threshold then
      Except.error (threshold_error threshold (ps.card + 1))
    else
      Except.ok
        (if applyEncoding then decode modulus (reconstruct_raw n modulus localIdx shares (some ps))
         else reconstruct_raw n modulus localIdx shares (some ps))
  | none =>
    Except.ok
      (if applyEncoding then decode modulus (reconstruct_raw n modulus localIdx shares none)
       else reconstruct_raw n modulus localIdx shares none)

/-- Source `ShamirSecretSharingScheme._mul_encoded`: message of the first precondition check. -/
def mul_not_possible_error (n threshold : ℤ) : String :=
  "Ciphertext multiplication not possible with n=" ++ toString n ++
    " parties and threshold equal to t=" ++ toString threshold ++
    ". Multiplication requires 2t-1 <= n."

/-- Source `ShamirSecretSharingScheme._mul_encoded`: message of the second precondition check. -/
def resharing_id_error : String :=
  "A resharing_id is required for this scheme and cannot be None."

/-- Source `ShamirSecretSharingScheme._mul_encoded`, lines 199-209: the two precondition
checks performed, in order, before any communication happens. -/
def mul_precheck (n threshold : ℤ) (resharingId : Option String) : Except String Unit :=
  if 2 * threshold - 1 > n then
    Except.error (mul_not_possible_error n threshold)
  else if resharingId.isNone then
    Except.error resharing_id_error
  else
    Except.ok ()

/-- Source `ShamirSecretSharingScheme._mul_encoded`:
`local_value = (self.weights[index] * value1 * value2) % self.modulus`. -/
def mul_local_value (n : ℕ) (modulus : ℤ) (i : ℕ) (value1 value2 : ℤ) : ℤ :=
  (weights n i * value1 * value2) % modulus

/-- Source `ShamirSecretSharingScheme._mul_encoded`: party `p` sums, over all parties `i`, the
share for `p` of the fresh sharing of the local value of party `i` (its own fragment plus one
received fragment per other party; the sum is not reduced mod the modulus). -/
def mul_reshared_share (n threshold : ℕ) (modulus : ℤ) (localValue : ℕ → ℤ)
    (rand : ℕ → ℕ → ℤ) (p : ℕ) : ℤ :=
  ∑ i ∈ Finset.range n, (share_secret n threshold modulus (localValue i) (rand i)).getD p 0

/-- The list of results of `_mul_encoded` at every party, on share lists `share1`, `share2`,
with `rand i` the random draws used by party `i` when resharing its local value. -/
def mul_result_shares (n threshold : ℕ) (modulus : ℤ) (share1 share2 : ℕ → ℤ)
    (rand : ℕ → ℕ → ℤ) : List ℤ :=
  (List.range n).map fun p =>
    mul_reshared_share n threshold modulus
      (fun i => mul_local_value n modulus i (share1 i) (share2 i)) rand p

/-- The parameters stored by a constructed `ShamirSecretSharingScheme`. -/
structure Config where
  n : ℤ
  modulus : ℤ
  threshold : ℤ
deriving DecidableEq

/-- Source `ShamirSecretSharingScheme.__init__`: the assignment `threshold = threshold or
1 + n // 2`. Python truthiness: an absent (`None`) threshold and an explicit `0` both
fall back to the default; any other integer is kept. -/
def threshold_or (threshold : Option ℤ) (default : ℤ) : ℤ :=
  match threshold with
  | none => default
  | some tv => if tv = 0 then default else tv

/-- Source `ShamirSecretSharingScheme.__init__`: apply the threshold default, then
`SecretSharingScheme.__init__` rejects `n <= 0`; no other validation is performed. -/
def init (n modulus : ℤ) (threshold : Option ℤ) : Except String Config :=
  if n ≤ 0 then
    Except.error "The number of parties must be positive."
  else
    Except.ok ⟨n, modulus, threshold_or threshold (1 + n.fdiv 2)⟩

end Shamir

namespace Additive

/-- Source `additive.py`: `self.max_value = modulus // 2`. -/
def max_value (modulus : ℤ) : ℤ :=
  modulus.fdiv 2

/-- Source `additive.py`: `self.min_value = (-modulus) // 2 + 1`. -/
def min_value (modulus : ℤ) : ℤ :=
  (-modulus).fdiv 2 + 1

/-- Source `AdditiveSecretSharingScheme.encode` (character-identical to the Shamir version). -/
def encode (modulus value : ℤ) : Except String ℤ :=
  if min_value modulus ≤ value ∧ value ≤ max_value modulus then
    Except.ok (value % modulus)
  else
    Except.error
      ("This encoding scheme only supports values in the range [" ++
        toString (min_value modulus) ++ ";" ++ toString (max_value modulus) ++
        "], " ++ toString value ++ " is outside that range.")

/-- Source `AdditiveSecretSharingScheme.decode`. -/
def decode (modulus encoded_value : ℤ) : ℤ :=
  if encoded_value ≤ max_value modulus then encoded_value else encoded_value - modulus

/-- Source `AdditiveSecretSharingScheme._share_secret`: `n - 1` reduced random values
(`secrets.randbelow(self.modulus) % self.modulus` for `i in range(1, self.nr_parties)`),
preceded by the share of the owner, `(secret - sum(shares)) % self.modulus`. -/
def share_secret (n : ℕ) (modulus secret : ℤ) (rand : ℕ → ℤ) : List ℤ :=
  let shares := (List.range (n - 1)).map fun i => rand i % modulus
  (secret - shares.sum) % modulus :: shares

/-- Source `AdditiveSecretSharingScheme._reconstruct_raw`: rejects any named subset, else
returns `sum(shares) % self.modulus`. -/
def reconstruct_raw (modulus : ℤ) (shares : List ℤ)
    (otherParties : Option (Finset ℕ)) : Except String ℤ :=
  match otherParties with
  | some _ =>
    Except.error
      "This is not a threshold scheme, so `other_parties` should always be the default None"
  | none => Except.ok (shares.sum % modulus)

end Additive

section Helpers

/-- When `value` is coprime to the modulus, `mod_inv` is a genuine modular inverse. -/
lemma mod_inv_mul_emod (value m : ℤ) (h : Int.gcd value m = 1) :
    value * mod_inv value m % m = 1 % m := by
  have hb := Int.gcd_eq_gcd_ab value m
  rw [h] at hb
  have h1 : value * (Int.gcdA value m % m) % m = value * Int.gcdA value m % m :=
    Int.ModEq.mul_left value (Int.emod_emod_of_dvd _ dvd_rfl)
  have h2 : value * Int.gcdA value m = 1 - m * Int.gcdB value m := by
    push_cast at hb
    linarith
  have h3 : (1 - m * Int.gcdB value m) % m = 1 % m := by
    rw [Int.sub_emod, Int.mul_emod_right, sub_zero, Int.emod_emod_of_dvd _ dvd_rfl]
  unfold mod_inv
  rw [h1, h2, h3]

/-- Decoding after reduction mod `m` recovers any value of the representable range. -/
lemma decode_core (m v : ℤ) (hm : 2 ≤ m) (h1 : (-m).fdiv 2 + 1 ≤ v) (h2 : v ≤ m.fdiv 2) :
    (if v % m ≤ m.fdiv 2 then v % m else v % m - m) = v := by
  rw [Int.fdiv_eq_ediv _ (by norm_num)] at h2 ⊢
  rw [Int.fdiv_eq_ediv _ (by norm_num)] at h1
  rcases le_or_lt 0 v with hv | hv
  · rw [Int.emod_eq_of_lt hv (by omega), if_pos (by omega)]
  · have h3 : (v + m * 1) % m = v % m := Int.add_mul_emod_self_left v m 1
    rw [show v + m * 1 = v + m by ring] at h3
    rw [← h3, Int.emod_eq_of_lt (by omega) (by omega), if_neg (by omega)]
    ring

end Helpers

/-- C4: for both the additive and the Shamir scheme with modulus `m ≥ 2`, every integer
`v` with `min_value ≤ v ≤ max_value` satisfies `decode (encode v) = v` (where `encode`
returns `v % m`), and `encode` rejects every `v` outside that range with an error. -/
theorem encode_decode_roundtrip (m v : ℤ) (hm : 2 ≤ m) :
    (Shamir.min_value m ≤ v ∧ v ≤ Shamir.max_value m →
      Shamir.encode m v = Except.ok (v % m) ∧ Shamir.decode m (v % m) = v ∧
        Additive.encode m v = Except.ok (v % m) ∧ Additive.decode m (v % m) = v) ∧
    (¬(Shamir.min_value m ≤ v ∧ v ≤ Shamir.max_value m) →
      (∃ e, Shamir.encode m v = Except.error e) ∧
        ∃ e, Additive.encode m v = Except.error e) := by
  constructor
  · rintro ⟨h1, h2⟩
    refine ⟨?_, ?_, ?_, ?_⟩
    · unfold Shamir.encode
      rw [if_pos ⟨h1, h2⟩]
    · unfold Shamir.decode Shamir.max_value
      exact decode_core m v hm h1 h2
    · unfold Additive.encode
      rw [if_pos ⟨h1, h2⟩]
    · unfold Additive.decode Additive.max_value
      exact decode_core m v hm h1 h2
  · intro h
    constructor
    · exact ⟨_, by unfold Shamir.encode; rw [if_neg h]⟩
    · exact ⟨_, by
        unfold Additive.encode
        rw [if_neg (show ¬(Additive.min_value m ≤ v ∧ v ≤ Additive.max_value m) from h)]⟩

/-- C4 witness: the round trip at `m = 1679`, `v = -812`, and the rejection of `840`. -/
theorem encode_decode_roundtrip_witness :
    (2 ≤ (1679 : ℤ) ∧
      (Shamir.min_value 1679 ≤ -812 ∧ -812 ≤ Shamir.max_value 1679 →
        Shamir.encode 1679 (-812) = Except.ok ((-812) % 1679) ∧
          Shamir.decode 1679 ((-812) % 1679) = -812 ∧
          Additive.encode 1679 (-812) = Except.ok ((-812) % 1679) ∧
          Additive.decode 1679 ((-812) % 1679) = -812) ∧
      (¬(Shamir.min_value 1679 ≤ -812 ∧ -812 ≤ Shamir.max_value 1679) →
        (∃ e, Shamir.encode 1679 (-812) = Except.error e) ∧
          ∃ e, Additive.encode 1679 (-812) = Except.error e)) ∧
    ¬(Shamir.min_value 1679 ≤ 840 ∧ 840 ≤ Shamir.max_value 1679) :=
  ⟨⟨by decide, encode_decode_roundtrip 1679 (-812) (by decide)⟩, by decide⟩

/-- C6: for the additive scheme with `n ≥ 1` parties and modulus `m ≥ 2`, sharing any
raw secret `s ∈ [0, m)` produces exactly `n` shares, and reconstructing them (with
`other_parties = None`) returns `s`: the shares sum to `s` mod `m` by construction. -/
theorem additive_share_reconstruct (n : ℕ) (m s : ℤ) (rand : ℕ → ℤ)
    (hn : 1 ≤ n) (hm : 2 ≤ m) (hs0 : 0 ≤ s) (hsm : s < m) :
    (Additive.share_secret n m s rand).length = n ∧
      Additive.reconstruct_raw m (Additive.share_secret n m s rand) none =
        Except.ok s := by
  have key : ∀ T : ℤ, ((s - T) % m + T) % m = s := by
    intro T
    rw [Int.emod_add_emod (s - T) m T, sub_add_cancel, Int.emod_eq_of_lt hs0 hsm]
  unfold Additive.share_secret Additive.reconstruct_raw
  constructor
  · simp only [List.length_cons, List.length_map, List.length_range]
    omega
  · simp only [List.sum_cons]
    rw [key]

/-- C6 witness: three parties, modulus 1679, secret 46, random draws 1000 and 700. -/
theorem additive_share_reconstruct_witness :
    1 ≤ 3 ∧ 2 ≤ (1679 : ℤ) ∧ 0 ≤ (46 : ℤ) ∧ (46 : ℤ) < 1679 ∧
      ((Additive.share_secret 3 1679 46 fun i => 1000 - 300 * i).length = 3 ∧
        Additive.reconstruct_raw 1679 (Additive.share_secret 3 1679 46 fun i => 1000 - 300 * i)
            none =
          Except.ok 46) :=
  ⟨by decide, by decide, by decide, by decide,
    additive_share_reconstruct 3 1679 46 (fun i => 1000 - 300 * i) (by decide) (by decide)
      (by decide) (by decide)⟩

/-- C7 counterexample: constructing a Shamir scheme with `n = 3` and the explicit
threshold `4`, which lies outside `[1, n]`, does not fail: the configuration is
accepted and stores threshold `4` unchanged. -/
theorem shamir_init_accepts_out_of_range_threshold :
    Shamir.init 3 1679 (some 4) = Except.ok ⟨3, 1679, 4⟩ := by
  rfl

/-- C7 amended: `ShamirSecretSharingScheme.__init__` performs no validation of the
threshold range. An unspecified threshold defaults to `1 + n // 2`; an explicit
threshold of `0` is replaced by that same default (Python truthiness of `threshold or
1 + n // 2`); every other explicit value, including values outside `[1, n]`, is stored
unchanged without error. Only a non-positive party count is rejected. -/
theorem shamir_init_no_threshold_validation (n m tv : ℤ) (hn : 1 ≤ n) (htv : tv ≠ 0) :
    Shamir.init n m none = Except.ok ⟨n, m, 1 + n.fdiv 2⟩ ∧
      Shamir.init n m (some tv) = Except.ok ⟨n, m, tv⟩ ∧
      Shamir.init n m (some 0) = Except.ok ⟨n, m, 1 + n.fdiv 2⟩ ∧
      Shamir.init 0 m (some tv) =
        Except.error "The number of parties must be positive." := by
  have h1 : Shamir.threshold_or (some tv) (1 + n.fdiv 2) = tv := by
    show (if tv = 0 then 1 + n.fdiv 2 else tv) = tv
    rw [if_neg htv]
  unfold Shamir.init
  refine ⟨?_, ?_, ?_, ?_⟩
  · rw [if_neg (by omega)]
    rfl
  · rw [if_neg (by omega), h1]
  · rw [if_neg (by omega)]
    rfl
  · rw [if_pos (by omega)]

/-- C7 witness: `n = 3`, `m = 1679`, explicit threshold `4 ∉ [1, 3]` accepted. -/
theorem shamir_init_no_threshold_validation_witness :
    1 ≤ (3 : ℤ) ∧ (4 : ℤ) ≠ 0 ∧
      (Shamir.init 3 1679 none = Except.ok ⟨3, 1679, 1 + Int.fdiv 3 2⟩ ∧
        Shamir.init 3 1679 (some 4) = Except.ok ⟨3, 1679, 4⟩ ∧
        Shamir.init 3 1679 (some 0) = Except.ok ⟨3, 1679, 1 + Int.fdiv 3 2⟩ ∧
        Shamir.init 0 1679 (some 4) =
          Except.error "The number of parties must be positive.") :=
  ⟨by decide, by decide, shamir_init_no_threshold_validation 3 1679 4 (by decide) (by decide)⟩

/-- C10: constructing a Shamir scheme with explicit `threshold = 0` does not raise; the
truthiness test `threshold or 1 + n // 2` replaces it by the default, so the result is
identical to passing no threshold at all and stores `threshold = 1 + n // 2`. -/
theorem shamir_init_zero_threshold_default (n m : ℤ) (hn : 1 ≤ n) :
    Shamir.init n m (some 0) = Shamir.init n m none ∧
      Shamir.init n m (some 0) = Except.ok ⟨n, m, 1 + n.fdiv 2⟩ := by
  constructor
  · rfl
  · unfold Shamir.init
    rw [if_neg (by omega)]
    rfl

/-- C10 witness: `n = 4`, `m = 11`: explicit threshold 0 yields threshold `3 = 1 + 4 // 2`. -/
theorem shamir_init_zero_threshold_default_witness :
    1 ≤ (4 : ℤ) ∧
      (Shamir.init 4 11 (some 0) = Shamir.init 4 11 none ∧
        Shamir.init 4 11 (some 0) = Except.ok ⟨4, 11, 1 + Int.fdiv 4 2⟩) :=
  ⟨by decide, shamir_init_zero_threshold_default 4 11 (by decide)⟩

/-- C8: `_mul_encoded` fails before any communication in exactly two cases, checked in
order: first `2 * threshold - 1 > n` (regardless of the resharing id), then a missing
`resharing_id`; when `2 * threshold - 1 ≤ n` and a resharing id is supplied, neither
error is raised and the check passes. -/
theorem shamir_mul_precheck_cases (n t : ℤ) (rid : Option String) (i : String) :
    (2 * t - 1 > n → Shamir.mul_precheck n t rid =
      Except.error (Shamir.mul_not_possible_error n t)) ∧
      (2 * t - 1 ≤ n → Shamir.mul_precheck n t none =
        Except.error Shamir.resharing_id_error) ∧
      (2 * t - 1 ≤ n → Shamir.mul_precheck n t (some i) = Except.ok ()) := by
  unfold Shamir.mul_precheck
  refine ⟨fun h => ?_, fun h => ?_, fun h => ?_⟩
  · rw [if_pos h]
  · rw [if_neg (by omega)]
    rfl
  · rw [if_neg (by omega)]
    rfl

/-- C8 witness: with `n = 3`: threshold 2 passes with an id and fails without one;
threshold 3 fails the degree check even though an id is supplied. -/
theorem shamir_mul_precheck_cases_witness :
    Shamir.mul_precheck 3 2 (some "m0") = Except.ok () ∧
      Shamir.mul_precheck 3 2 none = Except.error Shamir.resharing_id_error ∧
      Shamir.mul_precheck 3 3 (some "m0") =
        Except.error (Shamir.mul_not_possible_error 3 3) :=
  ⟨(shamir_mul_precheck_cases 3 2 none "m0").2.2 (by decide),
    (shamir_mul_precheck_cases 3 2 none "m0").2.1 (by decide),
    (shamir_mul_precheck_cases 3 3 (some "m0") "m0").1 (by decide)⟩

/-- C3 counterexample: Shamir with modulus 1679, `n = 3`, `t = 2`; the local party 0
reconstructs naming an empty set of other parties, so the contributor count including
the local party is `1 < 2`, yet no threshold error is raised: the Python truthiness
guard `if other_parties and ...` skips the check for an empty set and the
reconstruction returns the local share instead of failing. -/
theorem reconstruct_count_one_no_error :
    Shamir.reconstruct 3 2 1679 0 [5, 0, 0] false (some ∅) = Except.ok 5 := by
  simp [Shamir.reconstruct, Shamir.reconstruct_raw, Shamir.reconstruct_raw_partial,
    mod_inv, Int.gcdA, Nat.gcdA, Nat.xgcd, Nat.xgcdAux]

/-- C3 amended: reconstruction with a named nonempty set of other parties whose total
contributor count `card + 1` (counting the local party) is below the threshold fails
with the error naming the configured threshold and the supplied count. Because the
truthiness guard skips empty sets, the check can only fire with a supplied count of at
least 2; in particular the count-1 failure of the claimed scenario (threshold 2, one
contributor) never occurs, as the counterexample shows. -/
theorem reconstruct_threshold_error_on_nonempty_subset (n t : ℕ) (m : ℤ) (lp : ℕ)
    (shares : List ℤ) (ae : Bool) (ps : Finset ℕ) (hps : ps.Nonempty)
    (hlt : ps.card + 1 < t) :
    Shamir.reconstruct n t m lp shares ae (some ps) =
      Except.error (Shamir.threshold_error t (ps.card + 1)) := by
  simp only [Shamir.reconstruct]
  rw [if_pos ⟨hps, hlt⟩]

/-- C3 witness: threshold 3 with contributors of parties 0 (local) and 1 only. -/
theorem reconstruct_threshold_error_on_nonempty_subset_witness :
    ({1} : Finset ℕ).Nonempty ∧ ({1} : Finset ℕ).card + 1 < 3 ∧
      Shamir.reconstruct 3 3 1679 0 [23, 9, 4] true (some {1}) =
        Except.error (Shamir.threshold_error 3 (({1} : Finset ℕ).card + 1)) :=
  ⟨by decide, by decide,
    reconstruct_threshold_error_on_nonempty_subset 3 3 1679 0 [23, 9, 4] true {1}
      (by decide) (by decide)⟩

/-- Partial reconstruction with a singleton contributor set returns the share of that party
reduced mod the modulus, provided the evaluation point is coprime to the modulus. -/
lemma reconstruct_raw_partial_singleton (m : ℤ) (lp : ℕ) (shares : List ℤ)
    (hco : Int.gcd ((lp : ℤ) + 1) m = 1) :
    Shamir.reconstruct_raw_partial m ({lp} : Finset ℕ) shares = shares.getD lp 0 % m := by
  unfold Shamir.reconstruct_raw_partial
  rw [Finset.sum_singleton, Finset.prod_singleton, Finset.erase_singleton,
    Finset.prod_empty, mul_one, Int.mul_emod, mod_inv_mul_emod _ _ hco, ← Int.mul_emod,
    one_mul]

/-- C9: calling reconstruct with an empty `other_parties` set bypasses the threshold
check entirely (no threshold error is raised, for every threshold `t`, including
`t ≥ 2`), and performs a partial reconstruction with the local party as sole
contributor, whose raw result is the share of the local party reduced mod the modulus (and
is decoded when encoding is applied) rather than the secret. -/
theorem reconstruct_empty_other_parties (n t : ℕ) (m : ℤ) (lp : ℕ) (shares : List ℤ)
    (hco : Int.gcd ((lp : ℤ) + 1) m = 1) :
    Shamir.reconstruct n t m lp shares false (some ∅) =
        Except.ok (shares.getD lp 0 % m) ∧
      Shamir.reconstruct n t m lp shares true (some ∅) =
        Except.ok (Shamir.decode m (shares.getD lp 0 % m)) := by
  have hraw : Shamir.reconstruct_raw n m lp shares (some ∅) = shares.getD lp 0 % m := by
    simp only [Shamir.reconstruct_raw, Finset.empty_union]
    exact reconstruct_raw_partial_singleton m lp shares hco
  constructor
  · simp only [Shamir.reconstruct, Finset.not_nonempty_empty, false_and, if_false,
      Bool.false_eq_true, hraw]
  · simp only [Shamir.reconstruct, Finset.not_nonempty_empty, false_and, if_false,
      Bool.false_eq_true, if_true, hraw]

/-- C9 witness: party 0, modulus 1679, threshold 2: the empty subset yields the local
share 23 with no error. -/
theorem reconstruct_empty_other_parties_witness :
    Int.gcd ((0 : ℕ) + 1 : ℤ) 1679 = 1 ∧
      (Shamir.reconstruct 3 2 1679 0 [23, 9, 4] false (some ∅) =
          Except.ok (([23, 9, 4] : List ℤ).getD 0 0 % 1679) ∧
        Shamir.reconstruct 3 2 1679 0 [23, 9, 4] true (some ∅) =
          Except.ok (Shamir.decode 1679 (([23, 9, 4] : List ℤ).getD 0 0 % 1679))) :=
  ⟨by decide, reconstruct_empty_other_parties 3 2 1679 0 [23, 9, 4] (by decide)⟩

section LagrangeWeights

/-- The product `prod(range(1, n + 1))` computed by `weights` is `n!`. -/
lemma n_factorial_eq (n : ℕ) : Shamir.n_factorial n = (Nat.factorial n : ℤ) := by
  unfold Shamir.n_factorial
  rw [show ∏ j ∈ Finset.Ico 1 (n + 1), (j : ℤ) =
      ((∏ j ∈ Finset.Ico 1 (n + 1), j : ℕ) : ℤ) from (Nat.cast_prod _ _).symm]
  rw [Finset.prod_Ico_id_eq_factorial]

/-- The denominator product over `range n` minus `i` splits into the parts below and
above `i` and evaluates to `(-1)^i * i! * (n - 1 - i)!`. -/
lemma prod_range_erase (n i : ℕ) (hi : i < n) :
    ∏ j ∈ (Finset.range n).erase i, ((j : ℤ) - (i : ℤ)) =
      (-1) ^ i * (Nat.factorial i : ℤ) * (Nat.factorial (n - 1 - i) : ℤ) := by
  have hsplit : (Finset.range n).erase i = Finset.range i ∪ Finset.Ico (i + 1) n := by
    ext j
    simp only [Finset.mem_erase, Finset.mem_range, Finset.mem_union, Finset.mem_Ico]
    omega
  have hdisj : Disjoint (Finset.range i) (Finset.Ico (i + 1) n) := by
    rw [Finset.disjoint_left]
    intro j hj1 hj2
    simp only [Finset.mem_range] at hj1
    simp only [Finset.mem_Ico] at hj2
    omega
  rw [hsplit, Finset.prod_union hdisj]
  have hlow : ∏ j ∈ Finset.range i, ((j : ℤ) - (i : ℤ)) =
      (-1) ^ i * (Nat.factorial i : ℤ) := by
    have hstep : ∀ j ∈ Finset.range i, ((j : ℤ) - (i : ℤ)) = -1 * ((i - j : ℕ) : ℤ) := by
      intro j hj
      simp only [Finset.mem_range] at hj
      rw [Nat.cast_sub (le_of_lt hj)]
      ring
    have hfac : ∏ j ∈ Finset.range i, (i - j) = Nat.factorial i := by
      have h2 : ∏ j ∈ Finset.range i, (i - j) = ∏ j ∈ Finset.range i, (j + 1) := by
        rw [← Finset.prod_range_reflect (fun j => j + 1) i]
        refine Finset.prod_congr rfl fun j hj => ?_
        simp only [Finset.mem_range] at hj
        omega
      rw [h2, Finset.prod_range_add_one_eq_factorial]
    rw [Finset.prod_congr rfl hstep, Finset.prod_mul_distrib, Finset.prod_const,
      Finset.card_range, ← Nat.cast_prod, hfac]
  have hhigh : ∏ j ∈ Finset.Ico (i + 1) n, ((j : ℤ) - (i : ℤ)) =
      (Nat.factorial (n - 1 - i) : ℤ) := by
    rw [Finset.prod_Ico_eq_prod_range]
    have hstep : ∀ k ∈ Finset.range (n - (i + 1)), (((i + 1 + k : ℕ) : ℤ) - (i : ℤ)) =
        ((k + 1 : ℕ) : ℤ) := by
      intro k _
      push_cast
      ring
    rw [Finset.prod_congr rfl hstep, ← Nat.cast_prod,
      Finset.prod_range_add_one_eq_factorial, show n - (i + 1) = n - 1 - i from by omega]
  rw [hlow, hhigh]

/-- The key identity behind the cached weights: the denominator of weight `i` times the
signed binomial coefficient `(-1)^i * choose n (i+1)` is exactly `n!`. -/
lemma weights_key (n i : ℕ) (hi : i < n) :
    (((i : ℤ) + 1) * ∏ j ∈ (Finset.range n).erase i, ((j : ℤ) - (i : ℤ))) *
        ((-1) ^ i * (n.choose (i + 1) : ℤ)) =
      Shamir.n_factorial n := by
  have hnat : n.choose (i + 1) * Nat.factorial (i + 1) * Nat.factorial (n - 1 - i) =
      Nat.factorial n := by
    rw [show n - 1 - i = n - (i + 1) from by omega]
    exact Nat.choose_mul_factorial_mul_factorial (by omega)
  have hsq : ((-1 : ℤ)) ^ i * (-1) ^ i = 1 := by
    rw [← pow_add]
    exact Even.neg_one_pow ⟨i, rfl⟩
  rw [prod_range_erase n i hi, n_factorial_eq]
  calc ((i : ℤ) + 1) *
        ((-1) ^ i * (Nat.factorial i : ℤ) * (Nat.factorial (n - 1 - i) : ℤ)) *
        ((-1) ^ i * (n.choose (i + 1) : ℤ))
      = ((-1 : ℤ) ^ i * (-1) ^ i) *
          ((((i : ℤ) + 1) * (Nat.factorial i : ℤ)) * (Nat.factorial (n - 1 - i) : ℤ) *
            (n.choose (i + 1) : ℤ)) := by
        ring
    _ = (((i : ℤ) + 1) * (Nat.factorial i : ℤ)) * (Nat.factorial (n - 1 - i) : ℤ) *
          (n.choose (i + 1) : ℤ) := by
        rw [hsq, one_mul]
    _ = (Nat.factorial n : ℤ) := by
        rw [show ((i : ℤ) + 1) * (Nat.factorial i : ℤ) =
              (((i + 1) * Nat.factorial i : ℕ) : ℤ) from by push_cast; ring,
          ← Nat.factorial_succ, ← hnat]
        push_cast
        ring

/-- The denominator of each cached weight is nonzero. -/
lemma weights_denom_ne_zero (n i : ℕ) (hi : i < n) :
    (((i : ℤ) + 1) * ∏ j ∈ (Finset.range n).erase i, ((j : ℤ) - (i : ℤ))) ≠ 0 := by
  intro h0
  have hkey := weights_key n i hi
  rw [h0, zero_mul, n_factorial_eq] at hkey
  exact Int.natCast_ne_zero.mpr (Nat.factorial_ne_zero n) hkey.symm

/-- The denominator of each cached weight divides `n!` exactly. -/
lemma weights_denom_dvd (n i : ℕ) (hi : i < n) :
    (((i : ℤ) + 1) * ∏ j ∈ (Finset.range n).erase i, ((j : ℤ) - (i : ℤ))) ∣
      Shamir.n_factorial n :=
  ⟨(-1) ^ i * (n.choose (i + 1) : ℤ), (weights_key n i hi).symm⟩

/-- The cached weight of party `i` is the signed binomial coefficient
`(-1)^i * choose n (i+1)`. -/
lemma weights_eq (n i : ℕ) (hi : i < n) :
    Shamir.weights n i = (-1) ^ i * (n.choose (i + 1) : ℤ) := by
  unfold Shamir.weights
  rw [← weights_key n i hi,
    Int.mul_fdiv_cancel_left _ (weights_denom_ne_zero n i hi)]

end LagrangeWeights

section Interpolation

/-- Evaluating a polynomial of degree below the node count at 0 as the Lagrange
combination of its values at the nodes. -/
lemma lagrange_eval_zero {F : Type} [Field F] (s : Finset ℕ) (v : ℕ → F)
    (hvs : Set.InjOn v s) (P : Polynomial F) (hdeg : P.degree < s.card) :
    P.eval 0 = ∑ i ∈ s, P.eval (v i) * ∏ j ∈ s.erase i, ((v i - v j)⁻¹ * (0 - v j)) := by
  conv_lhs => rw [Lagrange.eq_interpolate hvs hdeg]
  rw [Lagrange.interpolate_apply, Polynomial.eval_finset_sum]
  refine Finset.sum_congr rfl fun i hi => ?_
  rw [Polynomial.eval_mul, Polynomial.eval_C, Lagrange.basis, Polynomial.eval_prod]
  refine congrArg (fun z => Polynomial.eval (v i) P * z)
    (Finset.prod_congr rfl fun j hj => ?_)
  rw [Lagrange.basisDivisor, Polynomial.eval_mul, Polynomial.eval_C, Polynomial.eval_sub,
    Polynomial.eval_X, Polynomial.eval_C]

/-- Over `ℚ`, the Lagrange coefficient at node `i + 1` for evaluation at 0 with node set
`{1, ..., n}` is exactly the cached integer weight of party `i`. -/
lemma weight_rat (n i : ℕ) (hi : i < n) :
    ∏ j ∈ (Finset.range n).erase i,
        ((((i : ℚ) + 1) - ((j : ℚ) + 1))⁻¹ * (0 - ((j : ℚ) + 1))) =
      ((Shamir.weights n i : ℤ) : ℚ) := by
  have hfactor : ∀ j ∈ (Finset.range n).erase i,
      ((((i : ℚ) + 1) - ((j : ℚ) + 1))⁻¹ * (0 - ((j : ℚ) + 1))) =
        ((j : ℚ) + 1) / ((j : ℚ) - (i : ℚ)) := by
    intro j hj
    rw [show ((i : ℚ) + 1) - ((j : ℚ) + 1) = -((j : ℚ) - (i : ℚ)) from by ring,
      show (0 : ℚ) - ((j : ℚ) + 1) = -((j : ℚ) + 1) from by ring, inv_neg, neg_mul_neg,
      div_eq_mul_inv, mul_comm]
  rw [Finset.prod_congr rfl hfactor, Finset.prod_div_distrib]
  have hNUM : (∏ j ∈ (Finset.range n).erase i, ((j : ℚ) + 1)) * ((i : ℚ) + 1) =
      (Nat.factorial n : ℚ) := by
    rw [Finset.prod_erase_mul (Finset.range n) _ (Finset.mem_range.mpr hi)]
    have hq : ∏ j ∈ Finset.range n, ((j : ℚ) + 1) =
        ((∏ j ∈ Finset.range n, (j + 1) : ℕ) : ℚ) := by
      push_cast
      rfl
    rw [hq, Finset.prod_range_add_one_eq_factorial]
  have hDen : ∏ j ∈ (Finset.range n).erase i, ((j : ℚ) - (i : ℚ)) =
      ((∏ j ∈ (Finset.range n).erase i, ((j : ℤ) - (i : ℤ)) : ℤ) : ℚ) := by
    rw [Int.cast_prod]
    push_cast
    rfl
  have hne := weights_denom_ne_zero n i hi
  have hD0 : ((∏ j ∈ (Finset.range n).erase i, ((j : ℤ) - (i : ℤ)) : ℤ) : ℚ) ≠ 0 := by
    rw [Int.cast_ne_zero]
    intro h0
    exact hne (by rw [h0, mul_zero])
  have hI0 : ((i : ℚ) + 1) ≠ 0 := by positivity
  have hkeyQ : (((i : ℚ) + 1) * ((∏ j ∈ (Finset.range n).erase i,
          ((j : ℤ) - (i : ℤ)) : ℤ) : ℚ)) * (((-1 : ℤ) ^ i * (n.choose (i + 1) : ℤ) : ℤ) : ℚ) =
      ((Shamir.n_factorial n : ℤ) : ℚ) := by
    exact_mod_cast congrArg (fun z : ℤ => (z : ℚ)) (weights_key n i hi)
  rw [n_factorial_eq, Int.cast_natCast] at hkeyQ
  rw [hDen, weights_eq n i hi, div_eq_iff hD0]
  have hcancel : (∏ j ∈ (Finset.range n).erase i, ((j : ℚ) + 1)) * ((i : ℚ) + 1) =
      ((((-1 : ℤ) ^ i * (n.choose (i + 1) : ℤ) : ℤ) : ℚ) *
          ((∏ j ∈ (Finset.range n).erase i, ((j : ℤ) - (i : ℤ)) : ℤ) : ℚ)) *
        ((i : ℚ) + 1) := by
    rw [hNUM, ← hkeyQ]
    ring
  exact mul_right_cancel₀ hI0 hcancel

/-- Core interpolation identity over `ℤ`: summing the cached weights against the values
of any integer polynomial of degree `< n` at the nodes `1, ..., n` recovers its value
at 0. -/
lemma sum_weights_poly_eval (n : ℕ) (hn : 1 ≤ n) (P : Polynomial ℤ)
    (hdeg : P.natDegree < n) :
    ∑ i ∈ Finset.range n, Shamir.weights n i * P.eval ((i : ℤ) + 1) = P.eval 0 := by
  have hinj : Set.InjOn (fun j : ℕ => ((j : ℚ) + 1)) (Finset.range n) := by
    intro a _ b _ h
    simp only at h
    have hab : (a : ℚ) = b := by linarith
    exact_mod_cast hab
  set PQ := P.map (Int.castRingHom ℚ) with hPQ
  have hdegQ : PQ.degree < (((Finset.range n).card : ℕ) : WithBot ℕ) := by
    rw [Finset.card_range]
    calc PQ.degree = P.degree := Polynomial.degree_map_eq_of_injective Int.cast_injective P
      _ ≤ (P.natDegree : WithBot ℕ) := Polynomial.degree_le_natDegree
      _ < ((n : ℕ) : WithBot ℕ) := by exact_mod_cast hdeg
  have hla := lagrange_eval_zero (Finset.range n) (fun j : ℕ => ((j : ℚ) + 1)) hinj PQ hdegQ
  simp only at hla
  have hev : ∀ x : ℤ, PQ.eval ((x : ℚ)) = ((P.eval x : ℤ) : ℚ) := by
    intro x
    rw [hPQ, Polynomial.eval_map]
    exact Polynomial.eval₂_at_apply (Int.castRingHom ℚ) x
  have h0 : ((P.eval 0 : ℤ) : ℚ) =
      ∑ i ∈ Finset.range n,
        ((P.eval ((i : ℤ) + 1) : ℤ) : ℚ) * ((Shamir.weights n i : ℤ) : ℚ) := by
    calc ((P.eval 0 : ℤ) : ℚ) = PQ.eval ((0 : ℤ) : ℚ) := (hev 0).symm
      _ = PQ.eval 0 := by norm_num
      _ = ∑ i ∈ Finset.range n, PQ.eval ((i : ℚ) + 1) *
            ∏ j ∈ (Finset.range n).erase i,
              ((((i : ℚ) + 1) - ((j : ℚ) + 1))⁻¹ * (0 - ((j : ℚ) + 1))) := hla
      _ = ∑ i ∈ Finset.range n,
            ((P.eval ((i : ℤ) + 1) : ℤ) : ℚ) * ((Shamir.weights n i : ℤ) : ℚ) := by
          refine Finset.sum_congr rfl fun i hi => ?_
          rw [weight_rat n i (Finset.mem_range.mp hi),
            show ((i : ℚ) + 1) = (((i : ℤ) + 1 : ℤ) : ℚ) from by push_cast; rfl, hev]
  have hcast : ((∑ i ∈ Finset.range n, Shamir.weights n i * P.eval ((i : ℤ) + 1) : ℤ) : ℚ) =
      ((P.eval 0 : ℤ) : ℚ) := by
    rw [h0, Int.cast_sum]
    refine Finset.sum_congr rfl fun i hi => ?_
    rw [Int.cast_mul]
    ring
  exact Int.cast_injective hcast

end Interpolation

section FullReconstruction

/-- Indexing into a mapped range list. -/
lemma getD_range_map (f : ℕ → ℤ) (n i : ℕ) (h : i < n) :
    ((List.range n).map f).getD i 0 = f i := by
  rw [List.getD_eq_getElem?_getD, List.getElem?_map, List.getElem?_range h]
  rfl

/-- Dropping inner reductions mod `m` under a weighted sum taken mod `m`. -/
lemma sum_mul_emod (s : Finset ℕ) (w f : ℕ → ℤ) (m : ℤ) :
    (∑ i ∈ s, w i * (f i % m)) % m = (∑ i ∈ s, w i * f i) % m := by
  rw [Finset.sum_int_mod]
  conv_rhs => rw [Finset.sum_int_mod]
  refine congrArg (fun z => z % m) (Finset.sum_congr rfl fun i _ => ?_)
  conv_lhs => rw [Int.mul_emod, Int.emod_emod_of_dvd _ dvd_rfl, ← Int.mul_emod]

/-- The sharing polynomial as a formal polynomial, evaluated. -/
lemma eval_int_poly (t : ℕ) (c : ℕ → ℤ) (x : ℤ) :
    (∑ k ∈ Finset.range t, Polynomial.C (c k) * Polynomial.X ^ k : Polynomial ℤ).eval x =
      ∑ k ∈ Finset.range t, c k * x ^ k := by
  simp [Polynomial.eval_finset_sum]

/-- The sharing polynomial has degree at most `t - 1`. -/
lemma natDegree_int_poly (t : ℕ) (c : ℕ → ℤ) :
    (∑ k ∈ Finset.range t, Polynomial.C (c k) * Polynomial.X ^ k : Polynomial ℤ).natDegree ≤
      t - 1 := by
  refine Polynomial.natDegree_sum_le_of_forall_le _ _ fun k hk => ?_
  refine le_trans (Polynomial.natDegree_C_mul_X_pow_le _ _) ?_
  simp only [Finset.mem_range] at hk
  omega

/-- Evaluating the coefficient sum at 0 leaves the constant term. -/
lemma sum_pow_zero (t : ℕ) (ht : 1 ≤ t) (c : ℕ → ℤ) :
    (∑ k ∈ Finset.range t, c k * (0 : ℤ) ^ k) = c 0 := by
  rw [Finset.sum_eq_single 0]
  · norm_num
  · intro k _ hk
    rw [zero_pow hk, mul_zero]
  · intro h
    exact absurd (Finset.mem_range.mpr (by omega)) h

/-- Summing the cached weights against the reduced shares of any degree-`< n`
coefficient vector returns the constant term mod `m`. -/
lemma weights_reconstruct (n t : ℕ) (m : ℤ) (c : ℕ → ℤ) (hn : 1 ≤ n) (ht : 1 ≤ t)
    (htn : t ≤ n) :
    (∑ i ∈ Finset.range n,
        Shamir.weights n i * ((∑ k ∈ Finset.range t, c k * ((i : ℤ) + 1) ^ k) % m)) % m =
      c 0 % m := by
  have hstep1 : (∑ i ∈ Finset.range n,
      Shamir.weights n i * ((∑ k ∈ Finset.range t, c k * ((i : ℤ) + 1) ^ k) % m)) % m =
      (∑ i ∈ Finset.range n,
        Shamir.weights n i * (∑ k ∈ Finset.range t, c k * ((i : ℤ) + 1) ^ k)) % m :=
    sum_mul_emod _ _ _ m
  have hstep2 : ∑ i ∈ Finset.range n,
      Shamir.weights n i * (∑ k ∈ Finset.range t, c k * ((i : ℤ) + 1) ^ k) = c 0 := by
    have hdeg : (∑ k ∈ Finset.range t, Polynomial.C (c k) * Polynomial.X ^ k :
        Polynomial ℤ).natDegree < n := lt_of_le_of_lt (natDegree_int_poly t c) (by omega)
    have := sum_weights_poly_eval n hn _ hdeg
    rw [eval_int_poly, sum_pow_zero t ht c] at this
    rw [← this]
    refine Finset.sum_congr rfl fun i _ => ?_
    rw [eval_int_poly]
  rw [hstep1, hstep2]

/-- C1: for every Shamir scheme with `n ≥ 1`, `1 ≤ t ≤ n`, modulus `m ≥ 2`, every raw
secret `s ∈ [0, m)` and every choice of the random coefficients, reconstructing all `n`
shares produced by `share_secret` via the cached weights (`other_parties = None`)
returns `s`; moreover every cached weight `n! // ((i+1) * prod(j - i))` is an exact
integer division: its denominator divides `n!`. -/
theorem shamir_full_set_reconstruction (n t : ℕ) (m s : ℤ) (rand : ℕ → ℤ)
    (hn : 1 ≤ n) (ht : 1 ≤ t) (htn : t ≤ n) (hm : 2 ≤ m) (hs0 : 0 ≤ s) (hsm : s < m) :
    Shamir.reconstruct_raw_full n m (Shamir.share_secret n t m s rand) = s ∧
      ∀ i < n, (((i : ℤ) + 1) * ∏ j ∈ (Finset.range n).erase i, ((j : ℤ) - (i : ℤ))) ∣
        Shamir.n_factorial n := by
  constructor
  · have hget : ∀ i, i < n → (Shamir.share_secret n t m s rand).getD i 0 =
        (∑ k ∈ Finset.range t, (if k = 0 then s else rand k) * ((i : ℤ) + 1) ^ k) % m := by
      intro i hi
      unfold Shamir.share_secret Shamir.polynomial
      rw [getD_range_map _ _ _ hi]
    unfold Shamir.reconstruct_raw_full
    rw [Finset.sum_congr rfl fun i hi =>
      congrArg (fun z => Shamir.weights n i * z) (hget i (Finset.mem_range.mp hi))]
    rw [weights_reconstruct n t m _ hn ht htn]
    simp only [if_pos rfl]
    exact Int.emod_eq_of_lt hs0 hsm
  · intro i hi
    exact weights_denom_dvd n i hi

/-- C1 witness: `n = 3`, `t = 2`, `m = 1679`, secret 23, random coefficient 1000. -/
theorem shamir_full_set_reconstruction_witness :
    1 ≤ 3 ∧ 1 ≤ 2 ∧ 2 ≤ 3 ∧ 2 ≤ (1679 : ℤ) ∧ 0 ≤ (23 : ℤ) ∧ (23 : ℤ) < 1679 ∧
      (Shamir.reconstruct_raw_full 3 1679 (Shamir.share_secret 3 2 1679 23 fun _ => 1000) =
          23 ∧
        ∀ i : ℕ, i < 3 →
          (((i : ℤ) + 1) * ∏ j ∈ (Finset.range 3).erase i, ((j : ℤ) - (i : ℤ))) ∣
            Shamir.n_factorial 3) :=
  ⟨by decide, by decide, by decide, by decide, by decide, by decide,
    shamir_full_set_reconstruction 3 2 1679 23 (fun _ => 1000) (by decide) (by decide)
      (by decide) (by decide) (by decide) (by decide)⟩

end FullReconstruction

section PartialReconstruction

/-- Evaluating the image of an integer polynomial at the image of an integer point. -/
lemma map_eval_int {S : Type} [CommRing S] (P : Polynomial ℤ) (x : ℤ) :
    (P.map (Int.castRingHom S)).eval ((x : ℤ) : S) = ((P.eval x : ℤ) : S) := by
  rw [Polynomial.eval_map]
  exact Polynomial.eval₂_at_apply _ x

/-- For a prime modulus, `mod_inv` casts to the field inverse in `ZMod p`. -/
lemma mod_inv_cast (p : ℕ) (hp : p.Prime) (d : ℤ) (hd : (d : ZMod p) ≠ 0) :
    ((mod_inv d (p : ℤ) : ℤ) : ZMod p) = (d : ZMod p)⁻¹ := by
  haveI : Fact p.Prime := ⟨hp⟩
  have hdvd : ¬ (p : ℤ) ∣ d := fun hc => hd ((ZMod.intCast_zmod_eq_zero_iff_dvd d p).mpr hc)
  have hgcd : Int.gcd d (p : ℤ) = 1 := by
    have h2 : ¬ p ∣ d.natAbs := fun hc =>
      hdvd (by rwa [← Int.natAbs_dvd_natAbs, Int.natAbs_ofNat])
    have h3 := (Nat.Prime.coprime_iff_not_dvd hp).mpr h2
    unfold Int.gcd
    rw [Int.natAbs_ofNat]
    exact Nat.coprime_comm.mp h3
  have hc2 := (ZMod.intCast_eq_intCast_iff' (d * mod_inv d (p : ℤ)) 1 p).mpr
    (mod_inv_mul_emod d (p : ℤ) hgcd)
  push_cast at hc2
  exact (inv_eq_of_mul_eq_one_right hc2).symm

/-- C5 core: partial reconstruction over a prime modulus `p > n` from any contributor
set of at least `t` parties returns the shared constant term mod `p`. -/
lemma zmod_partial_core (p : ℕ) (hp : p.Prime) (n t : ℕ) (hnp : n < p) (ht : 1 ≤ t)
    (K : Finset ℕ) (hsub : K ⊆ Finset.range n) (hcard : t ≤ K.card)
    (s : ℤ) (rand : ℕ → ℤ) :
    Shamir.reconstruct_raw_partial (p : ℤ) K (Shamir.share_secret n t (p : ℤ) s rand) =
      s % (p : ℤ) := by
  haveI : Fact p.Prime := ⟨hp⟩
  have hnode : ∀ i ∈ K, (((i : ℤ) + 1 : ℤ) : ZMod p) ≠ 0 := by
    intro i hi h0
    have hi2 : i < n := Finset.mem_range.mp (hsub hi)
    have hdvd := (ZMod.intCast_zmod_eq_zero_iff_dvd _ p).mp h0
    have hle := Int.le_of_dvd (by positivity) hdvd
    omega
  have hdiff : ∀ i ∈ K, ∀ j ∈ K, j ≠ i → (((j : ℤ) - (i : ℤ) : ℤ) : ZMod p) ≠ 0 := by
    intro i hi j hj hne h0
    have hi2 : i < n := Finset.mem_range.mp (hsub hi)
    have hj2 : j < n := Finset.mem_range.mp (hsub hj)
    have hdvd := (ZMod.intCast_zmod_eq_zero_iff_dvd _ p).mp h0
    rw [← Int.natAbs_dvd_natAbs, Int.natAbs_ofNat] at hdvd
    have hpos : 0 < ((j : ℤ) - (i : ℤ)).natAbs := by omega
    have hle := Nat.le_of_dvd hpos hdvd
    omega
  have hden : ∀ i ∈ K,
      ((((i : ℤ) + 1) * ∏ j ∈ K.erase i, ((j : ℤ) - (i : ℤ)) : ℤ) : ZMod p) ≠ 0 := by
    intro i hi
    rw [Int.cast_mul, Int.cast_prod]
    refine mul_ne_zero (hnode i hi) (Finset.prod_ne_zero_iff.mpr fun j hj => ?_)
    exact hdiff i hi j (Finset.mem_of_mem_erase hj) (Finset.ne_of_mem_erase hj)
  have hinj : Set.InjOn (fun j : ℕ => ((j : ZMod p) + 1)) K := by
    intro a ha b hb h
    simp only at h
    have h2 : (a : ZMod p) = (b : ZMod p) := by
      have := add_right_cancel h
      exact this
    have ha2 : a < p := lt_trans (Finset.mem_range.mp (hsub ha)) hnp
    have hb2 : b < p := lt_trans (Finset.mem_range.mp (hsub hb)) hnp
    have hval := congrArg ZMod.val h2
    rwa [ZMod.val_cast_of_lt ha2, ZMod.val_cast_of_lt hb2] at hval
  set PF := (∑ k ∈ Finset.range t,
      Polynomial.C ((fun k => if k = 0 then s else rand k) k) * Polynomial.X ^ k :
        Polynomial ℤ).map (Int.castRingHom (ZMod p)) with hPF
  have hdegF : PF.degree < ((K.card : ℕ) : WithBot ℕ) := by
    calc PF.degree ≤ _ := Polynomial.degree_map_le
      _ ≤ ((Polynomial.natDegree _ : ℕ) : WithBot ℕ) := Polynomial.degree_le_natDegree
      _ < ((K.card : ℕ) : WithBot ℕ) := by
          exact_mod_cast lt_of_le_of_lt (natDegree_int_poly t _) (by omega)
  have hla := lagrange_eval_zero K (fun j : ℕ => ((j : ZMod p) + 1)) hinj PF hdegF
  simp only at hla
  have hwt : ∀ i ∈ K,
      ∏ j ∈ K.erase i, ((((i : ZMod p) + 1) - ((j : ZMod p) + 1))⁻¹ * (0 - ((j : ZMod p) + 1))) =
        ((∏ cc ∈ K, ((cc : ℤ) + 1) : ℤ) : ZMod p) *
          ((((i : ℤ) + 1) * ∏ j ∈ K.erase i, ((j : ℤ) - (i : ℤ)) : ℤ) : ZMod p)⁻¹ := by
    intro i hi
    have hfactor : ∀ j ∈ K.erase i,
        ((((i : ZMod p) + 1) - ((j : ZMod p) + 1))⁻¹ * (0 - ((j : ZMod p) + 1))) =
          ((j : ZMod p) + 1) / ((j : ZMod p) - (i : ZMod p)) := by
      intro j hj
      rw [show ((i : ZMod p) + 1) - ((j : ZMod p) + 1) = -((j : ZMod p) - (i : ZMod p)) from
          by ring,
        show (0 : ZMod p) - ((j : ZMod p) + 1) = -((j : ZMod p) + 1) from by ring, inv_neg,
        neg_mul_neg, div_eq_mul_inv, mul_comm]
    rw [Finset.prod_congr rfl hfactor, Finset.prod_div_distrib]
    have hNUMe : (∏ j ∈ K.erase i, ((j : ZMod p) + 1)) * ((i : ZMod p) + 1) =
        ((∏ cc ∈ K, ((cc : ℤ) + 1) : ℤ) : ZMod p) := by
      rw [Finset.prod_erase_mul K _ hi, Int.cast_prod]
      push_cast
      rfl
    have hDe : ∏ j ∈ K.erase i, ((j : ZMod p) - (i : ZMod p)) =
        ((∏ j ∈ K.erase i, ((j : ℤ) - (i : ℤ)) : ℤ) : ZMod p) := by
      rw [Int.cast_prod]
      push_cast
      rfl
    have hi1 : ((i : ZMod p) + 1) ≠ 0 := by
      have := hnode i hi
      push_cast at this
      exact this
    have hD0 : ((∏ j ∈ K.erase i, ((j : ℤ) - (i : ℤ)) : ℤ) : ZMod p) ≠ 0 := by
      rw [Int.cast_prod]
      refine Finset.prod_ne_zero_iff.mpr fun j hj => ?_
      exact hdiff i hi j (Finset.mem_of_mem_erase hj) (Finset.ne_of_mem_erase hj)
    rw [← hNUMe, Int.cast_mul, ← hDe,
      show (((i : ℤ) + 1 : ℤ) : ZMod p) = ((i : ZMod p) + 1) from by push_cast; rfl,
      div_eq_mul_inv, mul_inv]
    calc (∏ j ∈ K.erase i, ((j : ZMod p) + 1)) *
          (∏ j ∈ K.erase i, ((j : ZMod p) - (i : ZMod p)))⁻¹
        = (∏ j ∈ K.erase i, ((j : ZMod p) + 1)) * (((i : ZMod p) + 1) * ((i : ZMod p) + 1)⁻¹) *
            (∏ j ∈ K.erase i, ((j : ZMod p) - (i : ZMod p)))⁻¹ := by
          rw [mul_inv_cancel₀ hi1, mul_one]
      _ = (∏ j ∈ K.erase i, ((j : ZMod p) + 1)) * ((i : ZMod p) + 1) *
            (((i : ZMod p) + 1)⁻¹ * (∏ j ∈ K.erase i, ((j : ZMod p) - (i : ZMod p)))⁻¹) := by
          ring
  have hsh : ∀ i ∈ K,
      (((Shamir.share_secret n t (p : ℤ) s rand).getD i 0 : ℤ) : ZMod p) =
        PF.eval ((i : ZMod p) + 1) := by
    intro i hi
    have hi2 : i < n := Finset.mem_range.mp (hsub hi)
    unfold Shamir.share_secret Shamir.polynomial
    rw [getD_range_map _ _ _ hi2]
    have hmod : (((∑ k ∈ Finset.range t, (if k = 0 then s else rand k) * ((i : ℤ) + 1) ^ k) %
        (p : ℤ) : ℤ) : ZMod p) =
        ((∑ k ∈ Finset.range t, (if k = 0 then s else rand k) * ((i : ℤ) + 1) ^ k : ℤ) :
          ZMod p) := by
      rw [ZMod.intCast_eq_intCast_iff']
      exact Int.emod_emod_of_dvd _ dvd_rfl
    rw [hmod, ← eval_int_poly t _ (((i : ℤ) + 1)), hPF,
      show ((i : ZMod p) + 1) = (((i : ℤ) + 1 : ℤ) : ZMod p) from by push_cast; rfl,
      map_eval_int]
  have hevalz : PF.eval 0 = ((s : ℤ) : ZMod p) := by
    rw [hPF, show (0 : ZMod p) = ((0 : ℤ) : ZMod p) from by push_cast; rfl, map_eval_int,
      eval_int_poly, sum_pow_zero t ht]
    norm_num
  unfold Shamir.reconstruct_raw_partial
  refine (ZMod.intCast_eq_intCast_iff' _ _ _).mp ?_
  rw [Int.cast_sum]
  calc ∑ i ∈ K, ((((∏ cc ∈ K, ((cc : ℤ) + 1)) *
          mod_inv (((i : ℤ) + 1) * ∏ j ∈ K.erase i, ((j : ℤ) - (i : ℤ))) (p : ℤ) *
          (Shamir.share_secret n t (p : ℤ) s rand).getD i 0 : ℤ) : ZMod p))
      = ∑ i ∈ K, PF.eval ((i : ZMod p) + 1) *
          ∏ j ∈ K.erase i,
            ((((i : ZMod p) + 1) - ((j : ZMod p) + 1))⁻¹ * (0 - ((j : ZMod p) + 1))) := by
        refine Finset.sum_congr rfl fun i hi => ?_
        rw [Int.cast_mul, Int.cast_mul, hwt i hi, hsh i hi,
          mod_inv_cast p hp _ (hden i hi)]
        ring
    _ = PF.eval 0 := hla.symm
    _ = ((s : ℤ) : ZMod p) := hevalz

/-- C5: for a Shamir scheme with prime modulus `p > n` and threshold `t`, with shares
the evaluations of a degree-`(t-1)` polynomial with constant term `s`, reconstructing
with a named subset whose contributors (the other parties joined with the local party)
number at least `t`, via the partial weights
`(prod (c+1)) * inverse((i+1) * prod (j-i), p)`, returns `s` mod `p`. -/
theorem shamir_partial_reconstruction (p : ℕ) (hp : Nat.Prime p) (n t : ℕ) (hnp : n < p)
    (ht : 1 ≤ t) (lp : ℕ) (ps : Finset ℕ) (hsub : ps ∪ {lp} ⊆ Finset.range n)
    (hcard : t ≤ (ps ∪ {lp}).card) (s : ℤ) (rand : ℕ → ℤ) :
    Shamir.reconstruct_raw n (p : ℤ) lp (Shamir.share_secret n t (p : ℤ) s rand)
        (some ps) =
      s % (p : ℤ) := by
  simp only [Shamir.reconstruct_raw]
  exact zmod_partial_core p hp n t hnp ht (ps ∪ {lp}) hsub hcard s rand

/-- C5 witness: `p = 5`, `n = t = 2`, local party 0 with other party 1, secret 3,
random coefficient 4. -/
theorem shamir_partial_reconstruction_witness :
    Nat.Prime 5 ∧ 2 < 5 ∧ 1 ≤ 2 ∧ (({1} : Finset ℕ) ∪ {0} ⊆ Finset.range 2) ∧
      2 ≤ (({1} : Finset ℕ) ∪ {0}).card ∧
      Shamir.reconstruct_raw 2 ((5 : ℕ) : ℤ) 0
          (Shamir.share_secret 2 2 ((5 : ℕ) : ℤ) 3 fun _ => 4) (some {1}) =
        3 % ((5 : ℕ) : ℤ) :=
  ⟨by decide, by decide, by decide, by decide, by decide,
    shamir_partial_reconstruction 5 (by decide) 2 2 (by decide) (by decide) 0 {1}
      (by decide) (by decide) 3 fun _ => 4⟩

end PartialReconstruction

section Multiplication

/-- Congruent summands give congruent sums mod `m`. -/
lemma sum_modEq (s : Finset ℕ) (f g : ℕ → ℤ) (m : ℤ) (h : ∀ i ∈ s, f i % m = g i % m) :
    (∑ i ∈ s, f i) % m = (∑ i ∈ s, g i) % m := by
  rw [Finset.sum_int_mod, Finset.sum_congr rfl h, ← Finset.sum_int_mod]

/-- Exact weighted-sum interpolation of a coefficient vector of length `t ≤ n`. -/
lemma sum_weights_coeffs (n t : ℕ) (c : ℕ → ℤ) (hn : 1 ≤ n) (ht : 1 ≤ t) (htn : t ≤ n) :
    ∑ i ∈ Finset.range n,
        Shamir.weights n i * (∑ k ∈ Finset.range t, c k * ((i : ℤ) + 1) ^ k) =
      c 0 := by
  have hdeg : (∑ k ∈ Finset.range t, Polynomial.C (c k) * Polynomial.X ^ k :
      Polynomial ℤ).natDegree < n := lt_of_le_of_lt (natDegree_int_poly t c) (by omega)
  have h := sum_weights_poly_eval n hn _ hdeg
  rw [eval_int_poly, sum_pow_zero t ht c] at h
  rw [← h]
  refine Finset.sum_congr rfl fun i _ => ?_
  rw [eval_int_poly]

/-- Numeric core of the resharing protocol: every party sums its received reshare
fragments of the local values `lv i`; reconstructing those sums with the cached weights
returns the sum of the local values mod `m`. -/
lemma mul_protocol_core (n t : ℕ) (m : ℤ) (lv : ℕ → ℤ) (rand : ℕ → ℕ → ℤ)
    (hn : 1 ≤ n) (ht : 1 ≤ t) (htn : t ≤ n) :
    (∑ p ∈ Finset.range n, Shamir.weights n p *
        (∑ i ∈ Finset.range n,
          (∑ k ∈ Finset.range t, (if k = 0 then lv i else rand i k) * ((p : ℤ) + 1) ^ k) %
            m)) % m =
      (∑ i ∈ Finset.range n, lv i) % m := by
  have hA : (∑ p ∈ Finset.range n, Shamir.weights n p *
      (∑ i ∈ Finset.range n,
        (∑ k ∈ Finset.range t, (if k = 0 then lv i else rand i k) * ((p : ℤ) + 1) ^ k) %
          m)) % m =
      (∑ p ∈ Finset.range n, Shamir.weights n p *
        (∑ i ∈ Finset.range n,
          ∑ k ∈ Finset.range t, (if k = 0 then lv i else rand i k) * ((p : ℤ) + 1) ^ k)) %
        m := by
    refine sum_modEq _ _ _ m fun p _ => ?_
    have hinner : (∑ i ∈ Finset.range n,
        (∑ k ∈ Finset.range t, (if k = 0 then lv i else rand i k) * ((p : ℤ) + 1) ^ k) % m) ≡
        (∑ i ∈ Finset.range n,
          ∑ k ∈ Finset.range t, (if k = 0 then lv i else rand i k) * ((p : ℤ) + 1) ^ k)
        [ZMOD m] := (Finset.sum_int_mod _ m _).symm
    exact (Int.ModEq.refl (Shamir.weights n p)).mul hinner
  rw [hA]
  have hB : ∑ p ∈ Finset.range n, Shamir.weights n p *
      (∑ i ∈ Finset.range n,
        ∑ k ∈ Finset.range t, (if k = 0 then lv i else rand i k) * ((p : ℤ) + 1) ^ k) =
      ∑ i ∈ Finset.range n, lv i := by
    have hswap : ∑ p ∈ Finset.range n, Shamir.weights n p *
        (∑ i ∈ Finset.range n,
          ∑ k ∈ Finset.range t, (if k = 0 then lv i else rand i k) * ((p : ℤ) + 1) ^ k) =
        ∑ i ∈ Finset.range n, ∑ p ∈ Finset.range n, Shamir.weights n p *
          (∑ k ∈ Finset.range t, (if k = 0 then lv i else rand i k) * ((p : ℤ) + 1) ^ k) := by
      rw [Finset.sum_congr rfl fun p _ => Finset.mul_sum _ _ _]
      exact Finset.sum_comm
    rw [hswap]
    refine Finset.sum_congr rfl fun i _ => ?_
    rw [sum_weights_coeffs n t _ hn ht htn]
    simp
  rw [hB]

/-- The weighted sum of pointwise products of two coefficient vectors of length `t`,
with `2t - 1 ≤ n`, interpolates the product of the constant terms. -/
lemma sum_weights_mul_product (n t : ℕ) (cf cg : ℕ → ℤ) (hn : 1 ≤ n) (ht : 1 ≤ t)
    (h2t : 2 * t - 1 ≤ n) :
    ∑ i ∈ Finset.range n, Shamir.weights n i *
        (∑ k ∈ Finset.range t, cf k * ((i : ℤ) + 1) ^ k) *
        (∑ k ∈ Finset.range t, cg k * ((i : ℤ) + 1) ^ k) =
      cf 0 * cg 0 := by
  have hdeg : ((∑ k ∈ Finset.range t, Polynomial.C (cf k) * Polynomial.X ^ k :
      Polynomial ℤ) * (∑ k ∈ Finset.range t, Polynomial.C (cg k) * Polynomial.X ^ k :
      Polynomial ℤ)).natDegree < n := by
    refine lt_of_le_of_lt Polynomial.natDegree_mul_le ?_
    have h1 := natDegree_int_poly t cf
    have h2 := natDegree_int_poly t cg
    omega
  have h := sum_weights_poly_eval n hn _ hdeg
  simp only [Polynomial.eval_mul, eval_int_poly] at h
  rw [sum_pow_zero t ht cf, sum_pow_zero t ht cg] at h
  rw [← h]
  refine Finset.sum_congr rfl fun i _ => ?_
  ring

/-- C2: multiplicative correctness of the resharing protocol. With `2t - 1 ≤ n`, if the
secrets `a` and `b` are shared by `share_secret`, each party `i` forms its local value
`weights[i] * share1_i * share2_i mod m`, reshares it with fresh randomness `rand i`,
and every party sums the fragments it holds, then reconstructing the resulting shares
with the cached weights and decoding returns `(a * b) mod m` reduced to the signed
range. -/
theorem shamir_multiplication_correct (n t : ℕ) (m a b : ℤ) (fr gr : ℕ → ℤ)
    (rand : ℕ → ℕ → ℤ) (hn : 1 ≤ n) (ht : 1 ≤ t) (h2t : 2 * t - 1 ≤ n) (hm : 2 ≤ m) :
    Shamir.decode m (Shamir.reconstruct_raw_full n m
        (Shamir.mul_result_shares n t m
          (fun i => (Shamir.share_secret n t m a fr).getD i 0)
          (fun i => (Shamir.share_secret n t m b gr).getD i 0) rand)) =
      Shamir.decode m ((a * b) % m) := by
  have htn : t ≤ n := by omega
  have hFA : ∀ i, i < n → (Shamir.share_secret n t m a fr).getD i 0 =
      (∑ k ∈ Finset.range t, (if k = 0 then a else fr k) * ((i : ℤ) + 1) ^ k) % m := by
    intro i hi
    unfold Shamir.share_secret Shamir.polynomial
    rw [getD_range_map _ _ _ hi]
  have hGA : ∀ i, i < n → (Shamir.share_secret n t m b gr).getD i 0 =
      (∑ k ∈ Finset.range t, (if k = 0 then b else gr k) * ((i : ℤ) + 1) ^ k) % m := by
    intro i hi
    unfold Shamir.share_secret Shamir.polynomial
    rw [getD_range_map _ _ _ hi]
  suffices hraw : Shamir.reconstruct_raw_full n m
      (Shamir.mul_result_shares n t m
        (fun i => (Shamir.share_secret n t m a fr).getD i 0)
        (fun i => (Shamir.share_secret n t m b gr).getD i 0) rand) = (a * b) % m by
    rw [hraw]
  have hnew : ∀ p, p < n →
      (Shamir.mul_result_shares n t m
          (fun i => (Shamir.share_secret n t m a fr).getD i 0)
          (fun i => (Shamir.share_secret n t m b gr).getD i 0) rand).getD p 0 =
        ∑ i ∈ Finset.range n,
          (∑ k ∈ Finset.range t,
            (if k = 0 then
              Shamir.mul_local_value n m i ((Shamir.share_secret n t m a fr).getD i 0)
                ((Shamir.share_secret n t m b gr).getD i 0)
             else rand i k) * ((p : ℤ) + 1) ^ k) % m := by
    intro p hp
    unfold Shamir.mul_result_shares Shamir.mul_reshared_share
    rw [getD_range_map _ _ _ hp]
    refine Finset.sum_congr rfl fun i _ => ?_
    unfold Shamir.share_secret Shamir.polynomial
    rw [getD_range_map _ _ _ hp]
  unfold Shamir.reconstruct_raw_full
  rw [Finset.sum_congr rfl fun p hp =>
    congrArg (fun z => Shamir.weights n p * z) (hnew p (Finset.mem_range.mp hp))]
  rw [mul_protocol_core n t m _ rand hn ht htn]
  have hC : (∑ i ∈ Finset.range n,
      Shamir.mul_local_value n m i ((Shamir.share_secret n t m a fr).getD i 0)
        ((Shamir.share_secret n t m b gr).getD i 0)) % m =
      (∑ i ∈ Finset.range n, Shamir.weights n i *
        (∑ k ∈ Finset.range t, (if k = 0 then a else fr k) * ((i : ℤ) + 1) ^ k) *
        (∑ k ∈ Finset.range t, (if k = 0 then b else gr k) * ((i : ℤ) + 1) ^ k)) % m := by
    refine sum_modEq _ _ _ m fun i hi => ?_
    unfold Shamir.mul_local_value
    rw [hFA i (Finset.mem_range.mp hi), hGA i (Finset.mem_range.mp hi)]
    have h1 : (∑ k ∈ Finset.range t, (if k = 0 then a else fr k) * ((i : ℤ) + 1) ^ k) % m ≡
        ∑ k ∈ Finset.range t, (if k = 0 then a else fr k) * ((i : ℤ) + 1) ^ k [ZMOD m] :=
      Int.emod_emod_of_dvd _ dvd_rfl
    have h2 : (∑ k ∈ Finset.range t, (if k = 0 then b else gr k) * ((i : ℤ) + 1) ^ k) % m ≡
        ∑ k ∈ Finset.range t, (if k = 0 then b else gr k) * ((i : ℤ) + 1) ^ k [ZMOD m] :=
      Int.emod_emod_of_dvd _ dvd_rfl
    have h3 := ((Int.ModEq.refl (Shamir.weights n i)).mul h1).mul h2
    calc (Shamir.weights n i *
          ((∑ k ∈ Finset.range t, (if k = 0 then a else fr k) * ((i : ℤ) + 1) ^ k) % m) *
          ((∑ k ∈ Finset.range t, (if k = 0 then b else gr k) * ((i : ℤ) + 1) ^ k) % m)) %
            m % m
        = (Shamir.weights n i *
            ((∑ k ∈ Finset.range t, (if k = 0 then a else fr k) * ((i : ℤ) + 1) ^ k) % m) *
            ((∑ k ∈ Finset.range t, (if k = 0 then b else gr k) * ((i : ℤ) + 1) ^ k) % m)) %
              m := Int.emod_emod_of_dvd _ dvd_rfl
      _ = (Shamir.weights n i *
            (∑ k ∈ Finset.range t, (if k = 0 then a else fr k) * ((i : ℤ) + 1) ^ k) *
            (∑ k ∈ Finset.range t, (if k = 0 then b else gr k) * ((i : ℤ) + 1) ^ k)) % m :=
          h3
  rw [hC, sum_weights_mul_product n t _ _ hn ht h2t]
  simp

/-- C2 witness: scenario C of the spec: `n = 3`, `t = 1`, modulus 1679, secrets 4 and 6;
the revealed product is 24. -/
theorem shamir_multiplication_correct_witness :
    1 ≤ 3 ∧ 1 ≤ 1 ∧ 2 * 1 - 1 ≤ 3 ∧ 2 ≤ (1679 : ℤ) ∧
      Shamir.decode 1679 (Shamir.reconstruct_raw_full 3 1679
          (Shamir.mul_result_shares 3 1 1679
            (fun i => (Shamir.share_secret 3 1 1679 4 fun _ => 0).getD i 0)
            (fun i => (Shamir.share_secret 3 1 1679 6 fun _ => 0).getD i 0)
            fun _ _ => 0)) =
        Shamir.decode 1679 ((4 * 6) % 1679) :=
  ⟨by decide, by decide, by decide, by decide,
    shamir_multiplication_correct 3 1 1679 4 6 (fun _ => 0) (fun _ => 0) (fun _ _ => 0)
      (by decide) (by decide) (by decide) (by decide)⟩

end Multiplication
